import Mathlib

/-!
Verification development for the streaming-chat pipeline of
`src/pages/index.tsx` (personal homepage with model console).

Text is modelled as `List Char`, byte streams as `List Nat`.  JavaScript
platform primitives that the page relies on (`JSON.parse`, the streaming
`TextDecoder`) are not part of the repository; they are modelled from the
spec as faithful executable functions, with the surrounding control flow
translated line-by-line from the source.
-/

/-- Whitespace set used to model JavaScript `trim`/`trimEnd` and the
`\s` class of the `data:` prefix regex (the common core of the JS set). -/
def isJsSpace (c : Char) : Bool :=
  c == ' ' || c == '\t' || c == '\n' || c == '\r' ||
  c == Char.ofNat 11 || c == Char.ofNat 12 || c == Char.ofNat 0xA0 ||
  c == Char.ofNat 0xFEFF

/-- Model of `String.prototype.trimEnd`. -/
def trimEndC (l : List Char) : List Char :=
  (l.reverse.dropWhile isJsSpace).reverse

/-- Model of `String.prototype.trim`. -/
def trimC (l : List Char) : List Char :=
  trimEndC (l.dropWhile isJsSpace)

/-- JSON values as produced by `JSON.parse`.  Numbers keep their source
lexeme (no claim depends on numeric arithmetic). -/
inductive Json : Type where
  | str (s : List Char)
  | num (lex : List Char)
  | bool (b : Bool)
  | null
  | obj (fields : List (List Char × Json))
  | arr (elems : List Json)

/-- Whitespace accepted between JSON tokens (RFC 8259). -/
def isJsonWs (c : Char) : Bool :=
  c == ' ' || c == '\t' || c == '\n' || c == '\r'

def skipWs (s : List Char) : List Char := s.dropWhile isJsonWs

def isDigitC (c : Char) : Bool :=
  decide (48 ≤ c.toNat ∧ c.toNat ≤ 57)

/-- Value of one hex digit, written over code points. -/
def hexVal (c : Char) : Option Nat :=
  let n := c.toNat
  if 48 ≤ n ∧ n ≤ 57 then some (n - 48)
  else if 97 ≤ n ∧ n ≤ 102 then some (n - 87)
  else if 65 ≤ n ∧ n ≤ 70 then some (n - 55)
  else none

/-- Replacement character U+FFFD. -/
def replChar : Char := Char.ofNat 0xFFFD

/-- Scalar-value constructor: surrogates and out-of-range code points map
to the replacement character. -/
def mkChar (n : Nat) : Char :=
  if Nat.isValidChar n then Char.ofNat n else replChar

/-- Body of a JSON string after the opening quote; returns the decoded
characters and the input remaining after the closing quote.  Lone
surrogate escapes become the replacement character (a `Char` cannot hold
a lone surrogate). -/
def parseStrBody : Nat → List Char → Option (List Char × List Char)
  | 0, _ => none
  | _ + 1, [] => none
  | fuel + 1, c :: rest =>
    if c = '"' then some ([], rest)
    else if c = '\\' then
      match rest with
      | [] => none
      | e :: rest2 =>
        if e = '"' then (parseStrBody fuel rest2).map (fun p => ('"' :: p.1, p.2))
        else if e = '\\' then (parseStrBody fuel rest2).map (fun p => ('\\' :: p.1, p.2))
        else if e = '/' then (parseStrBody fuel rest2).map (fun p => ('/' :: p.1, p.2))
        else if e = 'b' then (parseStrBody fuel rest2).map (fun p => (Char.ofNat 8 :: p.1, p.2))
        else if e = 'f' then (parseStrBody fuel rest2).map (fun p => (Char.ofNat 12 :: p.1, p.2))
        else if e = 'n' then (parseStrBody fuel rest2).map (fun p => ('\n' :: p.1, p.2))
        else if e = 'r' then (parseStrBody fuel rest2).map (fun p => ('\r' :: p.1, p.2))
        else if e = 't' then (parseStrBody fuel rest2).map (fun p => ('\t' :: p.1, p.2))
        else if e = 'u' then
          match rest2 with
          | h1 :: h2 :: h3 :: h4 :: rest3 =>
            match hexVal h1, hexVal h2, hexVal h3, hexVal h4 with
            | some a, some b, some cc, some d =>
              (parseStrBody fuel rest3).map
                (fun p => (mkChar (4096 * a + 256 * b + 16 * cc + d) :: p.1, p.2))
            | _, _, _, _ => none
          | _ => none
        else none
    else if c.toNat < 0x20 then none
    else (parseStrBody fuel rest).map (fun p => (c :: p.1, p.2))

/-- Strict JSON number lexeme: optional minus, integer part without
leading zeros, optional fraction, optional exponent. -/
def parseNumLex (s : List Char) : Option (List Char × List Char) :=
  let (sign, s1) :=
    match s with
    | '-' :: r => (['-'], r)
    | _ => (([] : List Char), s)
  match s1 with
  | [] => none
  | c :: r =>
    if c = '0' then
      let intPart := [c]
      let rest := r
      let (frac, rest2) :=
        match rest with
        | '.' :: r2 =>
          let ds := r2.takeWhile isDigitC
          if ds.isEmpty then (([] : List Char), rest)
          else ('.' :: ds, r2.drop ds.length)
        | _ => ([], rest)
      let (ex, rest3) :=
        match rest2 with
        | e :: r3 =>
          if e = 'e' ∨ e = 'E' then
            let (sg, r4) :=
              match r3 with
              | '+' :: r5 => (['+'], r5)
              | '-' :: r5 => (['-'], r5)
              | _ => (([] : List Char), r3)
            let ds := r4.takeWhile isDigitC
            if ds.isEmpty then (([] : List Char), rest2)
            else (e :: sg ++ ds, r4.drop ds.length)
          else ([], rest2)
        | [] => ([], rest2)
      if frac.isEmpty ∧ ex.isEmpty then some (sign ++ intPart, rest)
      else some (sign ++ intPart ++ frac ++ ex, rest3)
    else if isDigitC c then
      let ds := r.takeWhile isDigitC
      let intPart := c :: ds
      let rest := r.drop ds.length
      let (frac, rest2) :=
        match rest with
        | '.' :: r2 =>
          let ds2 := r2.takeWhile isDigitC
          if ds2.isEmpty then (([] : List Char), rest)
          else ('.' :: ds2, r2.drop ds2.length)
        | _ => ([], rest)
      let (ex, rest3) :=
        match rest2 with
        | e :: r3 =>
          if e = 'e' ∨ e = 'E' then
            let (sg, r4) :=
              match r3 with
              | '+' :: r5 => (['+'], r5)
              | '-' :: r5 => (['-'], r5)
              | _ => (([] : List Char), r3)
            let ds2 := r4.takeWhile isDigitC
            if ds2.isEmpty then (([] : List Char), rest2)
            else (e :: sg ++ ds2, r4.drop ds2.length)
          else ([], rest2)
        | [] => ([], rest2)
      if frac.isEmpty ∧ ex.isEmpty then some (sign ++ intPart, rest)
      else some (sign ++ intPart ++ frac ++ ex, rest3)
    else none

/-- Mode tag for the fuelled JSON parser (single function so that the
recursion is structural on the fuel and evaluates by `rfl`). -/
inductive PMode | val | arrElems | objFields

/-- Heterogeneous parse result. -/
inductive PRes where
  | v (j : Json)
  | es (l : List Json)
  | fs (l : List (List Char × Json))

def lbraceC : Char := Char.ofNat 123
def rbraceC : Char := Char.ofNat 125

/-- Modelled from the spec: `JSON.parse` (recursive-descent over the JSON
grammar, fuelled on input length). -/
def parseF : Nat → PMode → List Char → Option (PRes × List Char)
  | 0, _, _ => none
  | fuel + 1, .val, s =>
    if ("true".toList).isPrefixOf s then some (.v (.bool true), s.drop 4)
    else if ("false".toList).isPrefixOf s then some (.v (.bool false), s.drop 5)
    else if ("null".toList).isPrefixOf s then some (.v .null, s.drop 4)
    else
      match s with
      | [] => none
      | c :: rest =>
        if c = '"' then
          (parseStrBody (rest.length + 1) rest).map (fun p => (.v (.str p.1), p.2))
        else if c = lbraceC then
          match skipWs rest with
          | d :: r2 =>
            if d = rbraceC then some (.v (.obj []), r2)
            else
              match parseF fuel .objFields rest with
              | some (.fs fs, r3) => some (.v (.obj fs), r3)
              | _ => none
          | [] => none
        else if c = '[' then
          match skipWs rest with
          | d :: r2 =>
            if d = ']' then some (.v (.arr []), r2)
            else
              match parseF fuel .arrElems rest with
              | some (.es es, r3) => some (.v (.arr es), r3)
              | _ => none
          | [] => none
        else
          match parseNumLex s with
          | some p => some (.v (.num p.1), p.2)
          | none => none
  | fuel + 1, .arrElems, s =>
    match parseF fuel .val (skipWs s) with
    | some (.v j, r) =>
      (match skipWs r with
       | ',' :: r2 =>
         match parseF fuel .arrElems r2 with
         | some (.es es, r3) => some (.es (j :: es), r3)
         | _ => none
       | ']' :: r2 => some (.es [j], r2)
       | _ => none)
    | _ => none
  | fuel + 1, .objFields, s =>
    match skipWs s with
    | '"' :: r =>
      (match parseStrBody (r.length + 1) r with
       | some (k, r2) =>
         (match skipWs r2 with
          | ':' :: r3 =>
            (match parseF fuel .val (skipWs r3) with
             | some (.v j, r4) =>
               (match skipWs r4 with
                | ',' :: r5 =>
                  match parseF fuel .objFields r5 with
                  | some (.fs fs, r6) => some (.fs ((k, j) :: fs), r6)
                  | _ => none
                | d :: r5 =>
                  if d = rbraceC then some (.fs [(k, j)], r5) else none
                | [] => none)
             | _ => none)
          | _ => none)
       | none => none)
    | _ => none

/-- Modelled from the spec: `JSON.parse` on a whole document — the value
must consume the entire input up to whitespace, else the parse throws
(modelled as `none`). -/
def parseJson (s : List Char) : Option Json :=
  match parseF (2 * s.length + 2) .val (skipWs s) with
  | some (.v j, rest) => if skipWs rest = [] then some j else none
  | _ => none

/-! ### Field access and the `??` chains -/

/-- One step of an optional-chaining path: a property name or an index. -/
inductive PathStep where
  | fld (k : List Char)
  | idx (i : Nat)

/-- Object property lookup; with duplicate keys `JSON.parse` keeps the
last occurrence. -/
def getField (fs : List (List Char × Json)) (k : List Char) : Option Json :=
  (fs.reverse.find? (fun f => f.1 == k)).map (fun f => f.2)

/-- Single property/index access on a JSON value, mirroring JavaScript
semantics (`arr[0]`, `"s"[0]` is the first character, objects answer to
numeric keys by their decimal string). -/
def jsGet : Json → PathStep → Option Json
  | .obj fs, .fld k => getField fs k
  | .obj fs, .idx i => getField fs (toString i).toList
  | .arr es, .idx i => es.get? i
  | .str s, .idx i => (s.get? i).map (fun c => .str [c])
  | _, _ => none

/-- Optional chaining `a?.b`: `null`/`undefined` short-circuit to
`undefined` (`none`). -/
def chainStep (c : Option Json) (p : PathStep) : Option Json :=
  match c with
  | none => none
  | some .null => none
  | some v => jsGet v p

def getPath (j : Json) (ps : List PathStep) : Option Json :=
  ps.foldl chainStep (some j)

/-- Nullish coalescing `a ?? b` with `undefined` as `none`. -/
def jsqq : Option Json → Json → Json
  | some .null, b => b
  | some v, _ => v
  | none, b => b

/-- Zero lexeme test for JS number truthiness (`0`, `-0`, `0.0e5`, …). -/
def numIsZero (lex : List Char) : Bool :=
  ((lex.takeWhile (fun c => c ≠ 'e' ∧ c ≠ 'E')).filter isDigitC).all (fun c => c == '0')

/-- JavaScript truthiness of a JSON value. -/
def truthy : Json → Bool
  | .null => false
  | .bool b => b
  | .num lex => !numIsZero lex
  | .str s => !s.isEmpty
  | .arr _ => true
  | .obj _ => true

def joinC : List (List Char) → List Char
  | [] => []
  | [x] => x
  | x :: xs => x ++ ',' :: joinC xs

/-- Element rendering inside an array (`null` renders empty, nested
containers are approximated one level deep; no API shape in the spec
nests containers inside a text field). -/
def jsElemText : Json → List Char
  | .str s => s
  | .num lex => lex
  | .bool true => "true".toList
  | .bool false => "false".toList
  | .null => []
  | .arr _ => []
  | .obj _ => "[object Object]".toList

/-- String conversion of a JSON value, modelling the JavaScript
`String(...)` coercion applied when a non-string delta is concatenated
onto the typewriter queue. -/
def jsToText : Json → List Char
  | .str s => s
  | .num lex => lex
  | .bool true => "true".toList
  | .bool false => "false".toList
  | .null => "null".toList
  | .arr es => joinC (es.map jsElemText)
  | .obj _ => "[object Object]".toList

def pDeltaContent : List PathStep :=
  [.fld "choices".toList, .idx 0, .fld "delta".toList, .fld "content".toList]
def pMsgContent : List PathStep :=
  [.fld "choices".toList, .idx 0, .fld "message".toList, .fld "content".toList]
def pText : List PathStep := [.fld "text".toList]
def pContent : List PathStep := [.fld "content".toList]
def qChoiceText : List PathStep :=
  [.fld "choices".toList, .idx 0, .fld "text".toList]

/-- The per-line delta chain of `handleChat` (index.tsx:461-466):
`parsed?.choices?.[0]?.delta?.content ?? parsed?.choices?.[0]?.message?.content
?? parsed?.text ?? parsed?.content ?? ''`. -/
def extractDelta (j : Json) : Json :=
  jsqq (getPath j pDeltaContent)
    (jsqq (getPath j pMsgContent)
      (jsqq (getPath j pText)
        (jsqq (getPath j pContent) (.str []))))

/-! ### Line framing (the inner `while` of handleChat, index.tsx:449-479) -/

def dataToken : List Char := "data:".toList
def doneToken : List Char := "[DONE]".toList

def isDataLine (l : List Char) : Bool := dataToken.isPrefixOf l

/-- Payload of a `data:` line: `line.replace(regex data colon then
whitespace, '').trim()`. -/
def dataOf (l : List Char) : List Char := trimC (l.drop 5)

/-- Whether an (untrimmed) extracted line is the terminal sentinel frame. -/
def isDoneLine (l0 : List Char) : Bool :=
  isDataLine (trimEndC l0) && dataOf (trimEndC l0) == doneToken

/-- Deltas a single extracted line contributes (index.tsx:453-477):
nothing for non-`data:` lines; for `data:` lines, the JSON chain result if
truthy, or the raw payload if the parse fails and the payload is
non-empty. -/
def lineEmit (l0 : List Char) : List (List Char) :=
  let line := trimEndC l0
  if isDataLine line then
    let data := dataOf line
    if data == doneToken then []
    else
      match parseJson data with
      | some j =>
        let d := extractDelta j
        if truthy d then [jsToText d] else []
      | none => if data.isEmpty then [] else [data]
  else []

structure LinesOut where
  deltas : List (List Char)
  lines : List (List Char)
  done : Bool
  rest : List (List Char)
  deriving DecidableEq, Repr

/-- Sequential processing of the extracted lines with early exit at the
`[DONE]` sentinel; `deltas`/`lines` are accumulators, `rest` is the list
of complete lines never examined because of the sentinel break. -/
def runLines : List (List Char) → List (List Char) → List (List Char) → LinesOut
  | [], ds, ls => ⟨ds, ls, false, []⟩
  | l0 :: rest, ds, ls =>
    if isDoneLine l0 then ⟨ds, ls ++ [trimEndC l0], true, rest⟩
    else runLines rest (ds ++ lineEmit l0) (ls ++ [trimEndC l0])

/-- Splits a text into the complete lines before each newline and the
trailing partial line, exactly as the `indexOf`/`slice` loop does. -/
def splitLines : List Char → List (List Char) × List Char
  | [] => ([], [])
  | c :: cs =>
    let r := splitLines cs
    if c = '\n' then ([] :: r.1, r.2)
    else
      match r.1 with
      | [] => ([], c :: r.2)
      | l :: ls => ((c :: l) :: ls, r.2)

/-- Reassembles unprocessed complete lines and the trailing partial line
into the buffer remainder. -/
def joinRest (ls : List (List Char)) (r : List Char) : List Char :=
  ls.foldr (fun l acc => l ++ '\n' :: acc) r

/-! ### Streaming UTF-8 decoder (modelled from the spec: the persistent
`TextDecoder` instance that buffers an incomplete multi-byte sequence
across chunks). -/

/-- Expected sequence length for a lead byte (0 = invalid lead). -/
def utf8Need (b : Nat) : Nat :=
  if b < 0x80 then 1
  else if b < 0xC2 then 0
  else if b < 0xE0 then 2
  else if b < 0xF0 then 3
  else if b < 0xF5 then 4
  else 0

def isContB (b : Nat) : Bool := decide (0x80 ≤ b ∧ b < 0xC0)

/-- Assembles a full sequence of pending bytes into a character,
rejecting overlong encodings and out-of-range values. -/
def decodeSeq (p : List Nat) : Char :=
  match p with
  | [l] => mkChar l
  | [l, c1] =>
    let n := (l - 0xC0) * 64 + (c1 - 0x80)
    if 0x80 ≤ n then mkChar n else replChar
  | [l, c1, c2] =>
    let n := (l - 0xE0) * 4096 + (c1 - 0x80) * 64 + (c2 - 0x80)
    if 0x800 ≤ n then mkChar n else replChar
  | [l, c1, c2, c3] =>
    let n := (l - 0xF0) * 262144 + (c1 - 0x80) * 4096 + (c2 - 0x80) * 64 + (c3 - 0x80)
    if 0x10000 ≤ n ∧ n ≤ 0x10FFFF then mkChar n else replChar
  | _ => replChar

/-- Feeds one byte to the decoder: emits zero or more characters and
updates the pending incomplete sequence. -/
def decByte (p : List Nat) (b : Nat) : List Char × List Nat :=
  match p with
  | [] =>
    if b < 0x80 then ([mkChar b], [])
    else if 2 ≤ utf8Need b then ([], [b])
    else ([replChar], [])
  | l :: _ =>
    if isContB b then
      let q := p ++ [b]
      if q.length = utf8Need l then ([decodeSeq q], []) else ([], q)
    else
      if b < 0x80 then ([replChar, mkChar b], [])
      else if 2 ≤ utf8Need b then ([replChar], [b])
      else ([replChar, replChar], [])

def decStep (ap : List Char × List Nat) (b : Nat) : List Char × List Nat :=
  (ap.1 ++ (decByte ap.2 b).1, (decByte ap.2 b).2)

/-- Decodes one chunk with the pending state carried across chunks
(`decoder.decode(value, stream true)`). -/
def decodeChunk (p : List Nat) (bs : List Nat) : List Char × List Nat :=
  bs.foldl decStep ([], p)

/-! ### The read loop state of handleChat (index.tsx:438-494) -/

structure ChatState where
  pend : List Nat
  buffer : List Char
  rawText : List Char
  deltas : List (List Char)
  lines : List (List Char)
  done : Bool
  deriving DecidableEq, Repr

def chatInit : ChatState := ⟨[], [], [], [], [], false⟩

/-- Processing of one network chunk: decode with the persistent decoder,
extend `rawText` and the line buffer, then run the inner line loop
(`deltas` records every appended delta, `lines` every extracted line). -/
def processChunk (s : ChatState) (bs : List Nat) : ChatState :=
  { pend := (decodeChunk s.pend bs).2
    buffer :=
      joinRest
        (runLines (splitLines (s.buffer ++ (decodeChunk s.pend bs).1)).1 s.deltas s.lines).rest
        (splitLines (s.buffer ++ (decodeChunk s.pend bs).1)).2
    rawText := s.rawText ++ (decodeChunk s.pend bs).1
    deltas := (runLines (splitLines (s.buffer ++ (decodeChunk s.pend bs).1)).1 s.deltas s.lines).deltas
    lines := (runLines (splitLines (s.buffer ++ (decodeChunk s.pend bs).1)).1 s.deltas s.lines).lines
    done := (runLines (splitLines (s.buffer ++ (decodeChunk s.pend bs).1)).1 s.deltas s.lines).done }

/-- The outer `while (true)` read loop: chunks are consumed in order and
the loop stops early once the `[DONE]` sentinel was seen. -/
def runStream : ChatState → List (List Nat) → ChatState
  | s, [] => s
  | s, c :: cs => if s.done then s else runStream (processChunk s c) cs

/-- The zero-delta fallback extraction of handleChat (index.tsx:482-494):
`parsed?.choices?.[0]?.message?.content ?? parsed?.choices?.[0]?.text ??
parsed?.content ?? rawText`, with the raw text kept verbatim when the
whole-body parse fails. -/
def wholeBodyContent (raw : List Char) : List Char :=
  match parseJson raw with
  | some j =>
    jsToText
      (jsqq (getPath j pMsgContent)
        (jsqq (getPath j qChoiceText)
          (jsqq (getPath j pContent) (.str raw))))
  | none => raw

/-! ### The typewriter renderer (index.tsx:274-367) -/

/-- Interval-timer handle: the `setInterval` callbacks created by
`appendAssistantText` read the current-message ref at tick time, while
those created by `startTypewriter` capture their message id. -/
inductive TKind where
  | ref (h : Nat)
  | cap (h : Nat) (id : String)
  deriving DecidableEq, Repr

def TKind.handle : TKind → Nat
  | .ref h => h
  | .cap h _ => h

structure TW where
  queue : List Char
  currentId : String
  timer : Option TKind
  live : List Nat
  nextH : Nat
  msgs : List (String × List Char)
  deriving DecidableEq, Repr

/-- Lookup of a message's content by id (first occurrence). -/
def findMsg (id : String) : List (String × List Char) → Option (List Char)
  | [] => none
  | e :: es => if e.1 = id then some e.2 else findMsg id es

/-- The `setChatMessages(prev.map(...))` update appending one character
to every message with the given id. -/
def bump (id : String) (c : Char) (msgs : List (String × List Char)) :
    List (String × List Char) :=
  msgs.map (fun e => if e.1 = id then (e.1, e.2 ++ [c]) else e)

/-- `clearInterval` on the stored handle and nulling the ref. -/
def clearTimer (s : TW) : TW :=
  match s.timer with
  | some k => { s with timer := none, live := s.live.erase k.handle }
  | none => s

/-- Target message of a firing callback: the ref-reading callbacks of
`appendAssistantText` follow the current id; the capturing callbacks of
`startTypewriter` use their captured id. -/
def tickTarget (k : TKind) (s : TW) : String :=
  match k with
  | .ref _ => s.currentId
  | .cap _ i => i

/-- One firing of the interval callback: with an empty queue the timer
clears itself, otherwise exactly one character moves from the backlog to
the target message. -/
def tick (s : TW) : TW :=
  match s.timer with
  | none => s
  | some k =>
    match s.queue with
    | [] => clearTimer s
    | c :: q => { s with queue := q, msgs := bump (tickTarget k s) c s.msgs }

/-- `setInterval` registration guarded by the null check of
`appendAssistantText`. -/
def startTimerRef (s : TW) : TW :=
  if s.timer = none then
    { s with timer := some (.ref s.nextH), live := s.live ++ [s.nextH], nextH := s.nextH + 1 }
  else s

/-- Embedding of `appendAssistantText` (index.tsx:301-332). -/
def appendAssistantText (s : TW) (id : String) (t : List Char) : TW :=
  if t = [] then s
  else
    let s1 := if id = s.currentId then s else { s with queue := [], currentId := id }
    startTimerRef { s1 with queue := s1.queue ++ t }

/-- Embedding of `startTypewriter` (index.tsx:340-367): clear any timer,
replace the backlog, retarget, and start a fresh interval that captures
the message id. -/
def startTypewriter (s : TW) (id : String) (t : List Char) : TW :=
  let s1 := clearTimer s
  { s1 with currentId := id, queue := t,
            timer := some (.cap s1.nextH id),
            live := s1.live ++ [s1.nextH], nextH := s1.nextH + 1 }

/-- Renderer part of `closeChat` (index.tsx:274-285): only the timer is
cleared; the backlog and target ref stay. -/
def closeChatTW (s : TW) : TW := clearTimer s

/-- Renderer part of `stopStreaming` (index.tsx:287-299). -/
def stopStreamingTW (s : TW) : TW :=
  { clearTimer s with queue := [], currentId := "" }

def tickN : Nat → TW → TW
  | 0, s => s
  | n + 1, s => tickN n (tick s)

/-- Runs the interval until the backlog is empty. -/
def drainAll (s : TW) : TW := tickN s.queue.length s

/-- Interleavings of renderer events: appends racing with interval
ticks. -/
inductive Ev where
  | app (id : String) (t : List Char)
  | tk
  deriving DecidableEq, Repr

def runEvs : TW → List Ev → TW
  | s, [] => s
  | s, .app i t :: es => runEvs (appendAssistantText s i t) es
  | s, .tk :: es => runEvs (tick s) es

def evTexts : List Ev → List (List Char)
  | [] => []
  | .app _ t :: es => t :: evTexts es
  | .tk :: es => evTexts es

def evTargets (m : String) : Ev → Bool
  | .app i _ => i == m
  | .tk => true

/-- A timer that is absent or of the `appendAssistantText` kind (its
callback follows the current-message ref). -/
def refOrNone (s : TW) : Prop := ∀ h i, s.timer ≠ some (.cap h i)

/-! ### Full pipeline observation and the request prologue -/

def assistantId : String := "assistant"

/-- Fresh renderer with the just-created empty assistant message. -/
def twFresh : TW := ⟨[], "", none, [], 0, [(assistantId, [])]⟩

/-- Final rendered text of one response: every emitted delta goes through
`appendAssistantText`, the zero-delta fallback goes through
`startTypewriter`, and the interval runs until the backlog drains. -/
def finalRenderedSt (s : ChatState) : List Char :=
  let tw1 := s.deltas.foldl (fun tw d => appendAssistantText tw assistantId d) twFresh
  let tw2 :=
    if s.deltas = [] ∧ s.rawText ≠ [] then
      startTypewriter tw1 assistantId (wholeBodyContent s.rawText)
    else tw1
  (findMsg assistantId (drainAll tw2).msgs).getD []

def finalRendered (cs : List (List Nat)) : List Char :=
  finalRenderedSt (runStream chatInit cs)

/-- Conversation-level state for the request prologue: the renderer plus
the current abort controller (its aborted flag) and the flags of retired
controllers after the prologue touched them. -/
structure App where
  tw : TW
  cur : Option Bool
  retired : List Bool
  deriving DecidableEq, Repr

/-- Embedding of the prologue of `handleChat` (index.tsx:390-394): abort
the prior controller if any, install a fresh one; the typewriter refs are
not touched. -/
def handleChatStart (a : App) : App :=
  { tw := a.tw
    cur := some false
    retired := a.retired ++ (match a.cur with | some _ => [true] | none => []) }

/-- One user-visible error notification per catch entry
(index.tsx:496-499): `message.error(e?.message || default)` runs before
the `AbortError` name check. -/
structure JsErr where
  name : List Char
  msg : List Char

def defaultChatErr : List Char := "对话失败".toList

/-- Notifications produced by the catch block of `handleChat`. -/
def catchNotices (e : JsErr) : List (List Char) :=
  [if e.msg = [] then defaultChatErr else e.msg]

/-! ### Renderer operation traces for the timer invariant -/

inductive TOp where
  | app (id : String) (t : List Char)
  | tk
  | stw (id : String) (t : List Char)
  | close
  | stop
  deriving DecidableEq, Repr

def stepOp (s : TW) : TOp → TW
  | .app i t => appendAssistantText s i t
  | .tk => tick s
  | .stw i t => startTypewriter s i t
  | .close => closeChatTW s
  | .stop => stopStreamingTW s

def runOps : TW → List TOp → TW
  | s, [] => s
  | s, o :: os => runOps (stepOp s o) os

/-- Renderer state before any message ever streamed. -/
def twInit : TW := ⟨[], "", none, [], 0, []⟩

/-! ### The request payload builder (index.tsx:369-375) -/

inductive Role where
  | user
  | assistant
  deriving DecidableEq, Repr

structure ChatMsg where
  id : String
  role : Role
  content : List Char
  deriving DecidableEq, Repr

/-- Embedding of `buildMessagesPayload`: keep messages whose trimmed
content is non-empty, project to role/content pairs. -/
def buildMessagesPayload (ms : List ChatMsg) : List (Role × List Char) :=
  (ms.filter (fun m => !(trimC m.content).isEmpty)).map (fun m => (m.role, m.content))


/-! ### Basic lemmas -/

lemma mem_of_mem_dropWhileC {p : Char → Bool} :
    ∀ {l : List Char} {c : Char}, c ∈ l.dropWhile p → c ∈ l := by
  intro l
  induction l with
  | nil => intro c h; simp at h
  | cons a as ih =>
    intro c h
    by_cases hp : p a
    · simp only [List.dropWhile_cons, hp, if_true] at h
      exact List.mem_cons_of_mem a (ih h)
    · simp only [List.dropWhile_cons, hp, if_false] at h
      exact h

lemma mem_of_mem_takeWhileC {p : Char → Bool} :
    ∀ {l : List Char} {c : Char}, c ∈ l.takeWhile p → p c = true := by
  intro l
  induction l with
  | nil => intro c h; simp at h
  | cons a as ih =>
    intro c h
    by_cases hp : p a
    · simp only [List.takeWhile_cons, hp, if_true] at h
      rcases List.mem_cons.mp h with h1 | h1
      · rwa [h1]
      · exact ih h1
    · simp only [List.takeWhile_cons, hp, if_false] at h
      exact absurd h (List.not_mem_nil c)

lemma trimC_eq_nil_iff (l : List Char) :
    trimC l = [] ↔ ∀ c ∈ l, isJsSpace c := by
  unfold trimC trimEndC
  rw [List.reverse_eq_nil_iff, List.dropWhile_eq_nil_iff]
  constructor
  · intro h c hc
    by_cases hd : c ∈ l.dropWhile isJsSpace
    · exact h c (List.mem_reverse.mpr hd)
    · have hsplit : l.takeWhile isJsSpace ++ l.dropWhile isJsSpace = l :=
        List.takeWhile_append_dropWhile isJsSpace l
      rw [← hsplit] at hc
      rcases List.mem_append.mp hc with h1 | h1
      · exact mem_of_mem_takeWhileC h1
      · exact absurd h1 hd
  · intro h c hc
    exact h c (mem_of_mem_dropWhileC (List.mem_reverse.mp hc))

lemma trim_nonempty_iff_any (x : List Char) :
    (!(trimC x).isEmpty) = x.any (fun c => !isJsSpace c) := by
  rw [Bool.eq_iff_iff]
  constructor
  · intro h
    have hne : trimC x ≠ [] := by
      intro hnil
      simp [hnil] at h
    have hnall : ¬ ∀ c ∈ x, isJsSpace c := fun hall => hne ((trimC_eq_nil_iff x).mpr hall)
    push_neg at hnall
    rcases hnall with ⟨c, hc, hns⟩
    simp only [List.any_eq_true]
    exact ⟨c, hc, by simpa using hns⟩
  · intro h
    simp only [List.any_eq_true] at h
    rcases h with ⟨c, hc, hcf⟩
    have hcf2 : isJsSpace c = false := by simpa using hcf
    have hne : trimC x ≠ [] := by
      intro hnil
      have := (trimC_eq_nil_iff x).mp hnil c hc
      rw [this] at hcf2
      cases hcf2
    simpa using hne

/-! ### Claim C10 -/

/-- C10: the request payload excludes every message whose content is empty
or whitespace-only and maps each remaining message to exactly its
role/content pair, preserving order. -/
theorem c10_payload_filters_blank (ms : List ChatMsg) :
    buildMessagesPayload ms =
      (ms.filter (fun m => m.content.any (fun c => !isJsSpace c))).map
        (fun m => (m.role, m.content)) := by
  unfold buildMessagesPayload
  congr 1
  apply List.filter_congr
  intro m _
  exact trim_nonempty_iff_any m.content

/-! ### Claim C6 -/

def c6S : TW := ⟨"xy".toList, "a", none, [], 0, []⟩

/-- C6 counterexample: `append` with empty text is a no-op — the backlog
is not discarded, the queue is not retargeted, and no timer is started,
contrary to the unconditional reading of the claim. -/
theorem c6_counterexample :
    appendAssistantText c6S "b" [] = c6S ∧
    c6S.currentId ≠ "b" ∧ c6S.queue ≠ [] ∧
    (appendAssistantText c6S "b" []).timer = none := by
  refine ⟨rfl, by decide, by decide, rfl⟩

/-- C6 (amended): `append` with empty text returns immediately; with
non-empty text it retargets and discards the backlog exactly when the id
differs, concatenates the text, and starts a timer only if none is
active. -/
theorem c6_append_behaviour (s : TW) (id : String) (t : List Char) :
    (t = [] → appendAssistantText s id t = s) ∧
    (t ≠ [] →
      (appendAssistantText s id t).currentId = id ∧
      (appendAssistantText s id t).queue =
        (if id = s.currentId then s.queue else []) ++ t ∧
      (appendAssistantText s id t).msgs = s.msgs ∧
      (s.timer = none →
        (appendAssistantText s id t).timer = some (.ref s.nextH)) ∧
      (s.timer ≠ none → (appendAssistantText s id t).timer = s.timer)) := by
  constructor
  · intro h
    simp [appendAssistantText, h]
  · intro h
    by_cases hid : id = s.currentId <;>
      by_cases ht : s.timer = none <;>
        refine ⟨?_, ?_, ?_, ?_, ?_⟩ <;>
          simp [appendAssistantText, startTimerRef, h, hid, ht]

/-- C6 witness: a non-empty append from a fresh state retargets and
queues the text. -/
theorem c6_witness :
    (appendAssistantText c6S "b" ("z".toList)).currentId = "b" ∧
    (appendAssistantText c6S "b" ("z".toList)).queue = "z".toList := by
  have h := (c6_append_behaviour c6S "b" ("z".toList)).2 (by decide)
  exact ⟨h.1, h.2.1.trans (by decide)⟩

/-! ### Claim C8 -/

def abortErr : JsErr := ⟨"AbortError".toList, "The user aborted a request.".toList⟩

/-- C8 (code bug): the catch block of `handleChat` emits the error
notification before the `AbortError` name check, so an explicit abort is
not silent — one user-visible notification is produced even for the
abort error. -/
theorem c8_abort_not_silent :
    catchNotices abortErr = ["The user aborted a request.".toList] ∧
    abortErr.name = "AbortError".toList := by
  exact ⟨rfl, rfl⟩

/-! ### Claims C4 and C5: delta extraction -/

/-- First non-nullish candidate of a list (spec-style reformulation of
the `??` chain). -/
def firstNN : List (Option Json) → Option Json
  | [] => none
  | c :: cs =>
    match c with
    | none => firstNN cs
    | some .null => firstNN cs
    | some v => some v

/-- Claim-side extraction "first non-empty match wins": the first
candidate that is present, non-null and renders to non-empty text. -/
def firstNonEmptyText : List (Option Json) → Option (List Char)
  | [] => none
  | c :: cs =>
    match c with
    | none => firstNonEmptyText cs
    | some .null => firstNonEmptyText cs
    | some v =>
      if (jsToText v).isEmpty then firstNonEmptyText cs else some (jsToText v)

lemma jsqq_firstNN (c : Option Json) (cs : List (Option Json)) (d : Json) :
    jsqq c ((firstNN cs).getD d) = (firstNN (c :: cs)).getD d := by
  cases c with
  | none => rfl
  | some v => cases v <;> rfl

lemma extractDelta_eq_firstNN (j : Json) :
    extractDelta j =
      (firstNN ([pDeltaContent, pMsgContent, pText, pContent].map (getPath j))).getD
        (.str []) := by
  show jsqq (getPath j pDeltaContent)
      (jsqq (getPath j pMsgContent)
        (jsqq (getPath j pText)
          (jsqq (getPath j pContent) (.str [])))) = _
  rw [show (Json.str [] : Json) = (firstNN []).getD (.str []) from rfl,
    jsqq_firstNN, jsqq_firstNN, jsqq_firstNN, jsqq_firstNN]
  rfl

lemma lineEmit_length_le_one (l0 : List Char) : (lineEmit l0).length ≤ 1 := by
  unfold lineEmit
  by_cases h1 : isDataLine (trimEndC l0)
  · simp only [h1, if_true]
    by_cases h2 : dataOf (trimEndC l0) == doneToken
    · simp [h2]
    · simp only [h2]
      cases hp : parseJson (dataOf (trimEndC l0)) with
      | some j => by_cases h3 : truthy (extractDelta j) <;> simp [h3]
      | none => by_cases h4 : (dataOf (trimEndC l0)).isEmpty <;> simp [h4]
  · simp [h1]

/-- C4 (amended): for a non-sentinel `data:` line, a successful JSON
parse selects the first non-nullish field among delta-content,
message-content, `text`, `content` (not the first non-empty one), and a
delta is emitted only when that value is truthy; a failed parse emits the
raw payload exactly when it is non-empty; and every line yields at most
one delta. -/
theorem c4_extraction (l0 : List Char) (j : Json)
    (hd : isDataLine (trimEndC l0) = true)
    (hnd : isDoneLine l0 = false) :
    (parseJson (dataOf (trimEndC l0)) = some j →
      lineEmit l0 =
        (if truthy (extractDelta j) then [jsToText (extractDelta j)] else []) ∧
      extractDelta j =
        (firstNN ([pDeltaContent, pMsgContent, pText, pContent].map (getPath j))).getD
          (.str [])) ∧
    (parseJson (dataOf (trimEndC l0)) = none →
      lineEmit l0 =
        (if (dataOf (trimEndC l0)).isEmpty then [] else [dataOf (trimEndC l0)])) ∧
    (lineEmit l0).length ≤ 1 := by
  have hne : (dataOf (trimEndC l0) == doneToken) = false := by
    unfold isDoneLine at hnd
    rw [hd] at hnd
    simpa using hnd
  refine ⟨?_, ?_, lineEmit_length_le_one l0⟩
  · intro hp
    constructor
    · unfold lineEmit
      simp only [hd, if_true, hne, Bool.false_eq_true, if_false, hp]
    · exact extractDelta_eq_firstNN j
  · intro hp
    unfold lineEmit
    simp only [hd, if_true, hne, Bool.false_eq_true, if_false, hp]

def c4WL : List Char := "data: \x7b\"text\":\"ok\"\x7d".toList

/-- C4 witness: a `data:` line whose payload's `text` field is the first
non-nullish candidate emits exactly that delta. -/
theorem c4_witness : lineEmit c4WL = ["ok".toList] := by
  have h := c4_extraction c4WL (.obj [("text".toList, .str "ok".toList)])
    (by decide) (by decide)
  exact (h.1 (by rfl)).1

def c4CL : List Char :=
  "data: \x7b\"choices\":[\x7b\"delta\":\x7b\"content\":\"\"\x7d\x7d],\"content\":\"x\"\x7d".toList
def c4CJ : Json :=
  .obj [("choices".toList, .arr [.obj [("delta".toList, .obj [("content".toList, .str [])])]]),
        ("content".toList, .str "x".toList)]

/-- C4 counterexample: under "first non-empty match wins" the payload
with an empty delta-content and a non-empty top-level `content` would
emit `"x"`, but the code's nullish chain stops at the empty string and
emits nothing. -/
theorem c4_counterexample :
    parseJson (dataOf (trimEndC c4CL)) = some c4CJ ∧
    firstNonEmptyText ([pDeltaContent, pMsgContent, pText, pContent].map (getPath c4CJ)) =
      some ("x".toList) ∧
    lineEmit c4CL = [] := by
  refine ⟨by rfl, by rfl, by rfl⟩

lemma findMsg_bump_eq (m : String) (ch : Char) :
    ∀ msgs, findMsg m (bump m ch msgs) = (findMsg m msgs).map (fun c => c ++ [ch]) := by
  intro msgs
  induction msgs with
  | nil => rfl
  | cons e es ih =>
    by_cases h : e.1 = m
    · simp [bump, findMsg, h]
    · simp only [bump, List.map_cons, h, if_false, findMsg]
      simp only [bump] at ih
      exact ih

lemma findMsg_bump_ne (m j : String) (ch : Char) (hne : m ≠ j) :
    ∀ msgs, findMsg m (bump j ch msgs) = findMsg m msgs := by
  intro msgs
  induction msgs with
  | nil => rfl
  | cons e es ih =>
    have ih2 : findMsg m
        (List.map (fun e => if e.1 = j then (e.1, e.2 ++ [ch]) else e) es) =
        findMsg m es := by simpa [bump] using ih
    by_cases h : e.1 = j
    · have hne2 : ¬ (j = m) := fun hh => hne hh.symm
      simp [bump, findMsg, h, hne2, ih2]
    · by_cases h3 : e.1 = m
      · simp [bump, findMsg, h3, hne]
      · simp [bump, findMsg, h, h3, ih2]

lemma clearTimer_msgs (s : TW) : (clearTimer s).msgs = s.msgs := by
  unfold clearTimer
  cases s.timer <;> rfl

lemma tickN_cap (id : String) :
    ∀ (txt : List Char) (s : TW) (hh : Nat) (c : List Char),
      s.timer = some (TKind.cap hh id) → s.queue = txt →
      findMsg id s.msgs = some c →
      findMsg id (tickN txt.length s).msgs = some (c ++ txt) := by
  intro txt
  induction txt with
  | nil =>
    intro s hh c ht hq hm
    simpa using hm
  | cons ch rest ih =>
    intro s hh c ht hq hm
    have htick : tick s = { s with queue := rest, msgs := bump id ch s.msgs } := by
      simp only [tick, ht, hq, tickTarget]
    have hm2 : findMsg id (bump id ch s.msgs) = some (c ++ [ch]) := by
      rw [findMsg_bump_eq, hm]
      rfl
    have := ih { s with queue := rest, msgs := bump id ch s.msgs } hh (c ++ [ch])
      (by simpa using ht) rfl (by simpa using hm2)
    simp only [List.length_cons, tickN, htick]
    simpa [List.append_assoc] using this

/-- Batch-replace rendering: `startTypewriter` on an empty message
rebuilds it character-by-character into exactly the given text. -/
lemma startTypewriter_drains (tw : TW) (id : String) (txt : List Char)
    (hm : findMsg id tw.msgs = some []) :
    findMsg id (drainAll (startTypewriter tw id txt)).msgs = some txt := by
  have hq : (startTypewriter tw id txt).queue = txt := rfl
  have ht : (startTypewriter tw id txt).timer =
      some (TKind.cap (clearTimer tw).nextH id) := rfl
  have hm2 : findMsg id (startTypewriter tw id txt).msgs = some [] := by
    show findMsg id (clearTimer tw).msgs = some []
    rw [clearTimer_msgs]
    exact hm
  unfold drainAll
  rw [hq]
  simpa using tickN_cap id txt (startTypewriter tw id txt) (clearTimer tw).nextH [] ht hq hm2

/-- C5 (amended): with zero deltas and non-empty raw text, the whole raw
body is parsed once and a content string is selected as the first
non-nullish of `choices[0].message.content`, `choices[0].text`, and
top-level `content` — a different priority than the per-line chain —
falling back to the raw text when nothing matches or the parse fails, and
the result is rendered through the typewriter batch-replace path. -/
theorem c5_whole_body_fallback :
    (∀ raw j, parseJson raw = some j →
      wholeBodyContent raw =
        jsToText ((firstNN [getPath j pMsgContent, getPath j qChoiceText,
          getPath j pContent]).getD (.str raw))) ∧
    (∀ raw, parseJson raw = none → wholeBodyContent raw = raw) ∧
    (∀ (tw : TW) (id : String) (txt : List Char),
      findMsg id tw.msgs = some [] →
      findMsg id (drainAll (startTypewriter tw id txt)).msgs = some txt) := by
  refine ⟨?_, ?_, fun tw id txt hm => startTypewriter_drains tw id txt hm⟩
  · intro raw j hp
    have hstep : wholeBodyContent raw =
        jsToText (jsqq (getPath j pMsgContent)
          (jsqq (getPath j qChoiceText)
            (jsqq (getPath j pContent) (.str raw)))) := by
      unfold wholeBodyContent
      rw [hp]
    rw [hstep]
    congr 1
    rw [show (Json.str raw : Json) = (firstNN []).getD (.str raw) from rfl,
      jsqq_firstNN, jsqq_firstNN, jsqq_firstNN]
    rfl
  · intro raw hp
    have hstep : wholeBodyContent raw = raw := by
      unfold wholeBodyContent
      rw [hp]
    exact hstep

def c5Raw : List Char := "\x7b\"content\":\"Hello\"\x7d".toList
def c5J : Json := .obj [("content".toList, .str "Hello".toList)]

/-- C5 witness: the whole-body response with top-level `content` field
renders `"Hello"` through the batch-replace path. -/
theorem c5_witness :
    wholeBodyContent c5Raw = "Hello".toList ∧
    findMsg assistantId
      (drainAll (startTypewriter twFresh assistantId (wholeBodyContent c5Raw))).msgs =
      some ("Hello".toList) := by
  have h1 : wholeBodyContent c5Raw = "Hello".toList :=
    (c5_whole_body_fallback.1 c5Raw c5J (by rfl)).trans (by rfl)
  refine ⟨h1, ?_⟩
  have h2 := c5_whole_body_fallback.2.2 twFresh assistantId (wholeBodyContent c5Raw) (by rfl)
  rwa [h1] at h2

def c5CRaw : List Char := "\x7b\"text\":\"T\"\x7d".toList

/-- C5 counterexample: the per-line priority would extract `"T"` from a
top-level `text` field, but the whole-body fallback does not consult
top-level `text` and renders the raw JSON text instead — the two paths do
not share one field priority. -/
theorem c5_counterexample :
    lineEmit ("data: ".toList ++ c5CRaw) = ["T".toList] ∧
    wholeBodyContent c5CRaw = c5CRaw ∧
    c5CRaw ≠ "T".toList := by
  refine ⟨by rfl, by rfl, by decide⟩

/-! ### Claims C1 and C7: ordered reassembly through the typewriter -/

/-- Induction invariant for one target message `m`: the rendered content
plus the pending backlog (when adoptd by the queue) equals the initial
content plus everything appended so far; the queue only holds text for
`m` once an append retargeted it; a non-empty backlog has a live timer of
the append kind. -/
def Inv1 (m : String) (c0 ap : List Char) (s : TW) : Prop :=
  (∃ c, findMsg m s.msgs = some c ∧
     c ++ (if s.currentId = m then s.queue else []) = c0 ++ ap) ∧
  (s.currentId ≠ m → ap = []) ∧
  (s.queue ≠ [] → s.timer ≠ none) ∧
  refOrNone s

lemma startTimerRef_ne_none (s : TW) : (startTimerRef s).timer ≠ none := by
  unfold startTimerRef
  by_cases h : s.timer = none
  · simp [h]
  · simp [h]

lemma appendAssistantText_fields (s : TW) (id : String) (t : List Char) (ht : t ≠ []) :
    (appendAssistantText s id t).currentId = id ∧
    (appendAssistantText s id t).queue = (if id = s.currentId then s.queue else []) ++ t ∧
    (appendAssistantText s id t).msgs = s.msgs ∧
    (appendAssistantText s id t).timer ≠ none ∧
    (refOrNone s → refOrNone (appendAssistantText s id t)) := by
  by_cases hid : id = s.currentId <;>
    by_cases htm : s.timer = none <;>
      refine ⟨?_, ?_, ?_, ?_, ?_⟩ <;>
        simp only [appendAssistantText, startTimerRef, refOrNone, ht, hid, htm,
          reduceIte, if_true, if_false, ne_eq, not_false_eq_true, if_neg, if_pos] <;>
        simp [htm]

lemma inv1_app (m : String) (c0 ap : List Char) (s : TW) (t : List Char)
    (h : Inv1 m c0 ap s) : Inv1 m c0 (ap ++ t) (appendAssistantText s m t) := by
  rcases h with ⟨⟨c, hc, heq⟩, hap, hqt, hk⟩
  by_cases ht : t = []
  · rw [ht, List.append_nil,
      show appendAssistantText s m [] = s from by simp [appendAssistantText]]
    exact ⟨⟨c, hc, heq⟩, hap, hqt, hk⟩
  · obtain ⟨h1, h2, h3, h4, h5⟩ := appendAssistantText_fields s m t ht
    refine ⟨⟨c, ?_, ?_⟩, ?_, ?_, h5 hk⟩
    · rw [h3]
      exact hc
    · rw [h1, if_pos rfl, h2]
      by_cases hid : m = s.currentId
      · rw [if_pos hid]
        rw [if_pos hid.symm] at heq
        rw [← List.append_assoc, heq, List.append_assoc]
      · rw [if_neg hid]
        have hap2 : ap = [] := hap (fun hh => hid hh.symm)
        rw [if_neg (fun hh : s.currentId = m => hid hh.symm), List.append_nil] at heq
        rw [hap2] at heq ⊢
        rw [List.append_nil] at heq
        rw [heq]
    · intro hcur
      exact absurd h1 hcur
    · intro _
      exact h4

lemma inv1_tick (m : String) (c0 ap : List Char) (s : TW)
    (h : Inv1 m c0 ap s) : Inv1 m c0 ap (tick s) := by
  rcases h with ⟨⟨c, hc, heq⟩, hap, hqt, hk⟩
  cases htm : s.timer with
  | none =>
    rw [show tick s = s from by unfold tick; rw [htm]]
    exact ⟨⟨c, hc, heq⟩, hap, hqt, hk⟩
  | some k =>
    cases hq : s.queue with
    | nil =>
      have htick : tick s = clearTimer s := by
        unfold tick
        rw [htm, hq]
      rw [htick]
      unfold clearTimer
      rw [htm]
      refine ⟨⟨c, hc, heq⟩, hap, ?_, ?_⟩
      · intro hq2
        exact absurd hq hq2
      · intro hh ii
        simp
    | cons ch q =>
      have hkref : ∃ hh, k = TKind.ref hh := by
        cases k with
        | ref hh => exact ⟨hh, rfl⟩
        | cap hh ii => exact absurd htm (hk hh ii)
      obtain ⟨hh, rfl⟩ := hkref
      have htick : tick s = { s with queue := q, msgs := bump s.currentId ch s.msgs } := by
        simp only [tick, htm, hq, tickTarget]
      rw [htick]
      have htnn : s.timer ≠ none := by
        rw [htm]
        simp
      by_cases hcm : s.currentId = m
      · have hbump : findMsg m (bump s.currentId ch s.msgs) = some (c ++ [ch]) := by
          rw [hcm, findMsg_bump_eq, hc]
          rfl
        refine ⟨⟨c ++ [ch], hbump, ?_⟩, hap, fun _ => htnn, hk⟩
        rw [if_pos hcm] at heq ⊢
        rw [hq] at heq
        rw [List.append_assoc]
        simpa using heq
      · have hbump : findMsg m (bump s.currentId ch s.msgs) = findMsg m s.msgs :=
          findMsg_bump_ne m s.currentId ch (fun hh2 => hcm hh2.symm) s.msgs
        refine ⟨⟨c, by rw [hbump]; exact hc, ?_⟩, hap, fun _ => htnn, hk⟩
        rw [if_neg hcm] at heq ⊢
        exact heq

lemma inv1_run (m : String) (c0 : List Char) :
    ∀ (evs : List Ev) (s : TW) (ap : List Char),
      Inv1 m c0 ap s → (∀ e ∈ evs, evTargets m e = true) →
      Inv1 m c0 (ap ++ (evTexts evs).flatten) (runEvs s evs) := by
  intro evs
  induction evs with
  | nil =>
    intro s ap h _
    rw [show (evTexts ([] : List Ev)).flatten = [] from rfl, List.append_nil]
    exact h
  | cons e rest ih =>
    intro s ap h he
    cases e with
    | app i t =>
      have hi : i = m := by
        have := he (.app i t) (List.mem_cons_self _ _)
        simpa [evTargets] using this
      show Inv1 m c0 (ap ++ (t ++ (evTexts rest).flatten))
        (runEvs (appendAssistantText s i t) rest)
      rw [hi, ← List.append_assoc]
      exact ih (appendAssistantText s m t) (ap ++ t) (inv1_app m c0 ap s t h)
        (fun e2 he2 => he e2 (List.mem_cons_of_mem _ he2))
    | tk =>
      exact ih (tick s) ap (inv1_tick m c0 ap s h)
        (fun e2 he2 => he e2 (List.mem_cons_of_mem _ he2))

lemma inv1_drain (m : String) (c0 ap : List Char) :
    ∀ (n : Nat) (s : TW), s.queue.length = n → Inv1 m c0 ap s →
      findMsg m (tickN n s).msgs = some (c0 ++ ap) := by
  intro n
  induction n with
  | zero =>
    intro s hlen h
    rcases h with ⟨⟨c, hc, heq⟩, _, _, _⟩
    have hq : s.queue = [] := List.length_eq_zero.mp hlen
    rw [hq] at heq
    have heq2 : c = c0 ++ ap := by
      by_cases hcm : s.currentId = m
      · rw [if_pos hcm] at heq
        simpa using heq
      · rw [if_neg hcm] at heq
        simpa using heq
    show findMsg m s.msgs = some (c0 ++ ap)
    rw [hc, heq2]
  | succ n ih =>
    intro s hlen h
    have hq : s.queue ≠ [] := by
      intro hnil
      rw [hnil] at hlen
      exact absurd hlen (by simp)
    have h2 := inv1_tick m c0 ap s h
    have hlen2 : (tick s).queue.length = n := by
      rcases h with ⟨_, _, hqt, _⟩
      have htm : s.timer ≠ none := hqt hq
      cases htm2 : s.timer with
      | none => exact absurd htm2 htm
      | some k =>
        cases hq2 : s.queue with
        | nil => exact absurd hq2 hq
        | cons ch q =>
          have hq3 : (tick s).queue = q := by
            simp only [tick, htm2, hq2]
          rw [hq3]
          rw [hq2] at hlen
          simpa using hlen
    show findMsg m (tickN n (tick s)).msgs = some (c0 ++ ap)
    exact ih (tick s) hlen2 h2

/-- Shared reassembly lemma: from a state where the target message `m`
holds `c0`, the queue does not already hold foreign text for `m`, and the
timer discipline holds, any interleaving of appends targeting `m` with
interval ticks followed by a full drain leaves `m`'s content equal to
`c0` plus the concatenation of the appended texts in order. -/
lemma tw_reassembly (m : String) (c0 : List Char) (s0 : TW) (evs : List Ev)
    (hm : findMsg m s0.msgs = some c0)
    (hq : s0.currentId ≠ m ∨ s0.queue = [])
    (ht : s0.queue ≠ [] → s0.timer ≠ none)
    (hk : refOrNone s0)
    (he : ∀ e ∈ evs, evTargets m e = true) :
    findMsg m (drainAll (runEvs s0 evs)).msgs =
      some (c0 ++ (evTexts evs).flatten) := by
  have h0 : Inv1 m c0 [] s0 := by
    refine ⟨⟨c0, hm, ?_⟩, fun _ => rfl, ht, hk⟩
    rcases hq with hq | hq
    · rw [if_neg (fun hh => hq hh)]
    · rw [hq]
      by_cases hcm : s0.currentId = m
      · rw [if_pos hcm]
      · rw [if_neg hcm]
  have h1 := inv1_run m c0 evs s0 [] h0 he
  rw [List.nil_append] at h1
  exact inv1_drain m c0 ((evTexts evs).flatten) (runEvs s0 evs).queue.length
    (runEvs s0 evs) rfl h1

/-- C1: for any interleaving of `append` calls targeting one fixed
message id with interval ticks, draining the backlog to empty leaves the
target message's content equal to its initial content followed by the
concatenation of all appended texts in call order — no character skipped
or duplicated, regardless of batching. -/
theorem c1_ordered_reassembly (m : String) (c0 : List Char) (s0 : TW) (evs : List Ev)
    (hm : findMsg m s0.msgs = some c0)
    (hq : s0.currentId ≠ m ∨ s0.queue = [])
    (ht : s0.queue ≠ [] → s0.timer ≠ none)
    (hk : refOrNone s0)
    (he : ∀ e ∈ evs, evTargets m e = true) :
    findMsg m (drainAll (runEvs s0 evs)).msgs =
      some (c0 ++ (evTexts evs).flatten) :=
  tw_reassembly m c0 s0 evs hm hq ht hk he

/-- C1 witness: two batched appends interleaved with ticks drain to the
exact concatenation. -/
theorem c1_witness :
    findMsg assistantId
      (drainAll (runEvs twFresh
        [Ev.app assistantId ("Hel".toList), Ev.tk,
         Ev.app assistantId ("lo".toList), Ev.tk])).msgs =
      some ("Hello".toList) := by
  have h := c1_ordered_reassembly assistantId [] twFresh
    [Ev.app assistantId ("Hel".toList), Ev.tk,
     Ev.app assistantId ("lo".toList), Ev.tk]
    (by rfl) (Or.inl (by decide)) (fun hcon => absurd rfl hcon)
    (fun hh ii hcap => by simp [twFresh] at hcap)
    (by decide)
  exact h.trans (by decide)

def c7S : App :=
  ⟨⟨"abc".toList, "old", some (.ref 0), [0], 1, [("old", []), ("new", [])]⟩,
   some false, []⟩

/-- C7 counterexample: starting a new request aborts the prior controller
but leaves the Renderer's drain timer and character backlog untouched —
the claimed clearing of the Renderer state does not happen. -/
theorem c7_counterexample :
    (handleChatStart c7S).tw.queue = "abc".toList ∧
    (handleChatStart c7S).tw.timer = some (.ref 0) ∧
    (handleChatStart c7S).retired = [true] := by
  refine ⟨rfl, rfl, rfl⟩

/-- C7 (amended): starting a new send aborts the prior in-flight request
but does not clear the Renderer's timer or backlog; the stale backlog is
discarded only when the new response's first delta retargets the queue,
so the new assistant message still ends up containing exactly the second
request's text. -/
theorem c7_abort_without_clear :
    (∀ a : App,
      (handleChatStart a).tw = a.tw ∧
      (handleChatStart a).cur = some false ∧
      (a.cur.isSome → (handleChatStart a).retired = a.retired ++ [true])) ∧
    (∀ (newId : String) (s0 : TW) (evs : List Ev),
      findMsg newId s0.msgs = some [] →
      s0.currentId ≠ newId →
      (s0.queue ≠ [] → s0.timer ≠ none) →
      refOrNone s0 →
      (∀ e ∈ evs, evTargets newId e = true) →
      findMsg newId (drainAll (runEvs s0 evs)).msgs =
        some (evTexts evs).flatten) := by
  constructor
  · intro a
    refine ⟨rfl, rfl, ?_⟩
    intro hcur
    cases hv : a.cur with
    | none => rw [hv] at hcur; cases hcur
    | some b =>
      show a.retired ++ (match a.cur with | some _ => [true] | none => []) = _
      rw [hv]
  · intro newId s0 evs hm hc ht hk he
    have h := tw_reassembly newId [] s0 evs hm (Or.inl hc) ht hk he
    simpa using h

/-- C7 witness: from a mid-drain state of the first request, the
prologue aborts the prior controller and preserves the renderer; the
second request's appends then produce exactly its own text in the new
message. -/
theorem c7_witness :
    (handleChatStart c7S).tw = c7S.tw ∧
    findMsg "new"
      (drainAll (runEvs c7S.tw
        [Ev.app "new" ("Hi".toList), Ev.tk])).msgs =
      some ("Hi".toList) := by
  refine ⟨(c7_abort_without_clear.1 c7S).1, ?_⟩
  have h := c7_abort_without_clear.2 "new" c7S.tw
    [Ev.app "new" ("Hi".toList), Ev.tk]
    (by rfl) (by decide) (fun _ => by simp [c7S])
    (fun hh ii hcap => by simp [c7S] at hcap)
    (by decide)
  exact h.trans (by decide)


/-! ### Claim C9: timer-handle invariant -/

/-- At most one live interval timer: the stored handle tracks exactly the
registered interval, and a null handle means no interval is live. -/
def Inv9 (s : TW) : Prop :=
  (∀ k, s.timer = some k → s.live = [k.handle]) ∧
  (s.timer = none → s.live = [])

lemma clearTimer_state (s : TW) (h : Inv9 s) :
    (clearTimer s).timer = none ∧ (clearTimer s).live = [] := by
  cases ht : s.timer with
  | none =>
    have he : clearTimer s = s := by
      unfold clearTimer
      rw [ht]
    rw [he]
    exact ⟨ht, h.2 ht⟩
  | some k =>
    have he : clearTimer s = { s with timer := none, live := s.live.erase k.handle } := by
      unfold clearTimer
      rw [ht]
    rw [he]
    refine ⟨rfl, ?_⟩
    show s.live.erase k.handle = []
    rw [h.1 k ht]
    simp

lemma appendAssistantText_eq (s : TW) (id : String) (t : List Char) (ht : t ≠ []) :
    appendAssistantText s id t =
      startTimerRef { s with queue := (if id = s.currentId then s.queue else []) ++ t,
                             currentId := id } := by
  unfold appendAssistantText
  rw [if_neg ht]
  by_cases hid : id = s.currentId
  · rw [if_pos hid, if_pos hid, hid]
  · rw [if_neg hid, if_neg hid]

lemma startTypewriter_timer (s : TW) (id : String) (t : List Char) :
    (startTypewriter s id t).timer = some (.cap (clearTimer s).nextH id) := rfl

lemma startTypewriter_live (s : TW) (id : String) (t : List Char) :
    (startTypewriter s id t).live = (clearTimer s).live ++ [(clearTimer s).nextH] := rfl

lemma inv9_startTimerRef (s : TW) (h : Inv9 s) : Inv9 (startTimerRef s) := by
  unfold startTimerRef
  by_cases htm : s.timer = none
  · rw [if_pos htm]
    constructor
    · intro k hk
      simp only [Option.some.injEq] at hk
      rw [← hk]
      show s.live ++ [s.nextH] = [s.nextH]
      rw [h.2 htm]
      rfl
    · intro hcon
      cases hcon
  · rw [if_neg htm]
    exact h

lemma inv9_step (s : TW) (o : TOp) (h : Inv9 s) : Inv9 (stepOp s o) := by
  cases o with
  | app i t =>
    show Inv9 (appendAssistantText s i t)
    by_cases ht : t = []
    · rw [show appendAssistantText s i t = s from by simp [appendAssistantText, ht]]
      exact h
    · rw [appendAssistantText_eq s i t ht]
      exact inv9_startTimerRef _ ⟨fun k hk => h.1 k hk, fun hn => h.2 hn⟩
  | tk =>
    show Inv9 (tick s)
    cases htm : s.timer with
    | none =>
      rw [show tick s = s from by simp only [tick, htm]]
      exact h
    | some k =>
      cases hq : s.queue with
      | nil =>
        rw [show tick s = clearTimer s from by simp only [tick, htm, hq]]
        have hcs := clearTimer_state s h
        exact ⟨fun k2 hk2 => absurd hk2 (by rw [hcs.1]; simp), fun _ => hcs.2⟩
      | cons ch q =>
        rw [show tick s = { s with queue := q, msgs := bump (tickTarget k s) ch s.msgs }
          from by simp only [tick, htm, hq]]
        exact ⟨fun k2 hk2 => h.1 k2 hk2, fun hn => h.2 hn⟩
  | stw i t =>
    show Inv9 (startTypewriter s i t)
    have hcs := clearTimer_state s h
    constructor
    · intro k hk
      rw [startTypewriter_timer] at hk
      injection hk with hk2
      rw [startTypewriter_live, ← hk2, hcs.2]
      rfl
    · intro hcon
      rw [startTypewriter_timer] at hcon
      exact absurd hcon (by simp)
  | close =>
    show Inv9 (clearTimer s)
    have hcs := clearTimer_state s h
    exact ⟨fun k2 hk2 => absurd hk2 (by rw [hcs.1]; simp), fun _ => hcs.2⟩
  | stop =>
    show Inv9 (stopStreamingTW s)
    have hcs := clearTimer_state s h
    constructor
    · intro k hk
      exact absurd (hcs.1 ▸ hk : (none : Option TKind) = some k) (by simp)
    · intro _
      show (clearTimer s).live = []
      exact hcs.2

lemma inv9_runOps : ∀ (ops : List TOp) (s : TW), Inv9 s → Inv9 (runOps s ops) := by
  intro ops
  induction ops with
  | nil => intro s h; exact h
  | cons o os ih => intro s h; exact ih (stepOp s o) (inv9_step s o h)

lemma qt_step (s : TW) (o : TOp) (ho : o ≠ TOp.close)
    (h : s.queue ≠ [] → s.timer ≠ none) :
    (stepOp s o).queue ≠ [] → (stepOp s o).timer ≠ none := by
  cases o with
  | app i t =>
    by_cases ht : t = []
    · rw [show stepOp s (.app i t) = s from by simp [stepOp, appendAssistantText, ht]]
      exact h
    · intro _
      show (appendAssistantText s i t).timer ≠ none
      rw [appendAssistantText_eq s i t ht]
      exact startTimerRef_ne_none _
  | tk =>
    show (tick s).queue ≠ [] → (tick s).timer ≠ none
    cases htm : s.timer with
    | none =>
      rw [show tick s = s from by simp only [tick, htm]]
      exact h
    | some k =>
      cases hq : s.queue with
      | nil =>
        rw [show tick s = clearTimer s from by simp only [tick, htm, hq]]
        intro hqn
        exact absurd (show (clearTimer s).queue = [] from by
          unfold clearTimer
          rw [htm]
          exact hq) hqn
      | cons ch q =>
        rw [show tick s = { s with queue := q, msgs := bump (tickTarget k s) ch s.msgs }
          from by simp only [tick, htm, hq]]
        intro _
        show s.timer ≠ none
        rw [htm]
        simp
  | stw i t =>
    intro _
    show (startTypewriter s i t).timer ≠ none
    rw [startTypewriter_timer]
    simp
  | close => exact absurd rfl ho
  | stop =>
    intro hqn
    exact absurd rfl hqn

lemma qt_runOps : ∀ (ops : List TOp) (s : TW),
    (s.queue ≠ [] → s.timer ≠ none) → (∀ o ∈ ops, o ≠ TOp.close) →
    (runOps s ops).queue ≠ [] → (runOps s ops).timer ≠ none := by
  intro ops
  induction ops with
  | nil => intro s h _; exact h
  | cons o os ih =>
    intro s h ho
    exact ih (stepOp s o)
      (qt_step s o (ho o (List.mem_cons_self _ _)) h)
      (fun o2 ho2 => ho o2 (List.mem_cons_of_mem _ ho2))

/-- C9 counterexample: after an append followed by `closeChat`, the
backlog is non-empty while the timer handle is null — "handle non-null
iff backlog non-empty or more text coming" fails in a reachable state,
precisely after the chat view is closed. -/
theorem c9_counterexample :
    (runOps twInit [TOp.app "m" ("ab".toList), TOp.close]).queue ≠ [] ∧
    (runOps twInit [TOp.app "m" ("ab".toList), TOp.close]).timer = none := by
  constructor
  · decide
  · rfl

/-- C9 (amended): in every reachable renderer state the stored handle
tracks exactly one live interval (an existing timer is always cleared
before the handle is reassigned, so duplicate concurrent timers never
exist), and along traces that never close the chat view a non-empty
backlog implies an active timer; `closeChat` however clears only the
timer and may leave a non-empty backlog behind. -/
theorem c9_timer_invariant (ops : List TOp) :
    Inv9 (runOps twInit ops) ∧
    ((∀ o ∈ ops, o ≠ TOp.close) →
      (runOps twInit ops).queue ≠ [] → (runOps twInit ops).timer ≠ none) := by
  constructor
  · exact inv9_runOps ops twInit ⟨fun k hk => absurd hk (by simp [twInit]), fun _ => rfl⟩
  · intro ho
    exact qt_runOps ops twInit (fun hq => absurd rfl hq) ho

/-- C9 witness: a close-free trace keeps the timer alive while the
backlog is non-empty. -/
theorem c9_witness :
    (runOps twInit [TOp.app "m" ("ab".toList), TOp.tk]).timer ≠ none :=
  (c9_timer_invariant [TOp.app "m" ("ab".toList), TOp.tk]).2
    (by decide) (by decide)

/-! ### Claim C3: the terminal sentinel -/

lemma runLines_cons_done (l0 : List Char) (rest ds ls : List (List Char))
    (h : isDoneLine l0 = true) :
    runLines (l0 :: rest) ds ls = ⟨ds, ls ++ [trimEndC l0], true, rest⟩ := by
  unfold runLines
  rw [if_pos h]

lemma runLines_cons_not_done (l0 : List Char) (rest ds ls : List (List Char))
    (h : isDoneLine l0 = false) :
    runLines (l0 :: rest) ds ls =
      runLines rest (ds ++ lineEmit l0) (ls ++ [trimEndC l0]) := by
  unfold runLines
  rw [if_neg (by rw [h]; exact Bool.false_ne_true)]
  exact runLines.eq_def _ _ _

/-- C3: once a line's payload equals the `[DONE]` sentinel, the stream is
marked complete and no further lines of the response are processed — the
deltas are exactly those of the lines before the sentinel and the lines
after it are left untouched. -/
theorem c3_done_sentinel (ls1 ls2 : List (List Char)) (dl : List Char)
    (ds ls : List (List Char))
    (h1 : ls1.all (fun l => !isDoneLine l) = true)
    (h2 : isDoneLine dl = true) :
    runLines (ls1 ++ dl :: ls2) ds ls =
      ⟨ds ++ (ls1.map lineEmit).flatten,
       ls ++ ls1.map trimEndC ++ [trimEndC dl], true, ls2⟩ := by
  induction ls1 generalizing ds ls with
  | nil =>
    rw [List.nil_append, runLines_cons_done dl ls2 ds ls h2]
    simp
  | cons l rest ih =>
    have hl : isDoneLine l = false := by
      have := List.all_eq_true.mp h1 l (List.mem_cons_self _ _)
      simpa using this
    have hrest : rest.all (fun l => !isDoneLine l) = true := by
      rw [List.all_eq_true] at h1 ⊢
      exact fun x hx => h1 x (List.mem_cons_of_mem _ hx)
    rw [List.cons_append, runLines_cons_not_done l _ ds ls hl,
      ih (ds ++ lineEmit l) (ls ++ [trimEndC l]) hrest]
    simp [List.append_assoc]

def c3L1 : List Char :=
  "data: \x7b\"choices\":[\x7b\"delta\":\x7b\"content\":\"Hi\"\x7d\x7d]\x7d".toList
def c3L2 : List Char := "data: [DONE]".toList
def c3L3 : List Char := "data: \x7b\"text\":\"IGNORED\"\x7d".toList

/-- C3 witness: for the lines `data: {choices:[{delta:{content:Hi}}]}`
then `data: [DONE]` (with a probe line behind the sentinel), the emitted
delta sequence is exactly `["Hi"]`, completion is signalled after the
second line, and the probe line is never processed. -/
theorem c3_witness :
    runLines [c3L1, c3L2, c3L3] [] [] =
      ⟨["Hi".toList], [c3L1, c3L2], true, [c3L3]⟩ := by
  have h := c3_done_sentinel [c3L1] [c3L3] c3L2 [] [] (by decide) (by decide)
  exact h.trans (by decide)

/-! ### Claim C2: chunk-boundary invariance machinery -/

def noNL (b : List Char) : Prop := ∀ c ∈ b, c ≠ '\n'

lemma splitLines_noNL : ∀ b : List Char, noNL b → splitLines b = ([], b) := by
  intro b
  induction b with
  | nil => intro _; rfl
  | cons c cs ih =>
    intro h
    have hc : c ≠ '\n' := h c (List.mem_cons_self _ _)
    have hcs : noNL cs := fun x hx => h x (List.mem_cons_of_mem _ hx)
    simp only [splitLines, ih hcs, if_neg hc]

lemma splitLines_rest_noNL : ∀ b : List Char, noNL (splitLines b).2 := by
  intro b
  induction b with
  | nil => intro x hx; cases hx
  | cons c cs ih =>
    by_cases hc : c = '\n'
    · simp only [splitLines]
      rw [if_pos hc]
      exact ih
    · simp only [splitLines]
      rw [if_neg hc]
      cases h1 : (splitLines cs).1 with
      | nil =>
        show noNL (c :: (splitLines cs).2)
        intro x hx
        rcases List.mem_cons.mp hx with hx | hx
        · rw [hx]; exact hc
        · exact ih x hx
      | cons l ls =>
        show noNL (splitLines cs).2
        exact ih

lemma splitLines_append : ∀ (a b : List Char),
    splitLines (a ++ b) =
      ((splitLines a).1 ++ (splitLines ((splitLines a).2 ++ b)).1,
       (splitLines ((splitLines a).2 ++ b)).2) := by
  intro a b
  induction a with
  | nil => simp [splitLines]
  | cons c a2 ih =>
    rcases hsa : splitLines a2 with ⟨a1, ar⟩
    rw [hsa] at ih
    simp only at ih
    rcases hx : splitLines (ar ++ b) with ⟨x1, x2⟩
    rw [hx] at ih
    by_cases hc : c = '\n'
    · simp [splitLines, ih, hsa, hx, hc]
    · cases ha1 : a1 with
      | nil =>
        rw [ha1] at ih hsa
        cases hx1 : x1 <;>
          simp [splitLines, ih, hsa, hx, hc, hx1]
      | cons l ls =>
        rw [ha1] at ih hsa
        simp [splitLines, ih, hsa, hx, hc]

lemma runLines_notDone_rest : ∀ (ls ds l : List (List Char)),
    (runLines ls ds l).done = false → (runLines ls ds l).rest = [] := by
  intro ls
  induction ls with
  | nil => intro ds l _; rfl
  | cons l0 rest ih =>
    intro ds l hd
    by_cases h : isDoneLine l0
    · rw [runLines_cons_done l0 rest ds l h] at hd
      cases hd
    · have h2 : isDoneLine l0 = false := by simpa using h
      rw [runLines_cons_not_done l0 rest ds l h2] at hd ⊢
      exact ih _ _ hd

lemma runLines_append : ∀ (ls1 ls2 ds l : List (List Char)),
    runLines (ls1 ++ ls2) ds l =
      (if (runLines ls1 ds l).done then
        ⟨(runLines ls1 ds l).deltas, (runLines ls1 ds l).lines, true,
         (runLines ls1 ds l).rest ++ ls2⟩
      else runLines ls2 (runLines ls1 ds l).deltas (runLines ls1 ds l).lines) := by
  intro ls1
  induction ls1 with
  | nil =>
    intro ls2 ds l
    simp [runLines]
  | cons l0 rest ih =>
    intro ls2 ds l
    by_cases h : isDoneLine l0
    · rw [List.cons_append, runLines_cons_done l0 (rest ++ ls2) ds l h,
        runLines_cons_done l0 rest ds l h]
      simp
    · have h2 : isDoneLine l0 = false := by simpa using h
      rw [List.cons_append, runLines_cons_not_done l0 (rest ++ ls2) ds l h2,
        runLines_cons_not_done l0 rest ds l h2]
      exact ih ls2 _ _

lemma foldl_decStep_acc : ∀ (bs : List Nat) (a : List Char) (p : List Nat),
    bs.foldl decStep (a, p) =
      (a ++ (bs.foldl decStep ([], p)).1, (bs.foldl decStep ([], p)).2) := by
  intro bs
  induction bs with
  | nil => intro a p; simp
  | cons b bs2 ih =>
    intro a p
    simp only [List.foldl_cons, decStep]
    rw [ih (a ++ (decByte p b).1) (decByte p b).2,
      ih ([] ++ (decByte p b).1) (decByte p b).2]
    simp

lemma decodeChunk_append (p b1 b2 : List Nat) :
    decodeChunk p (b1 ++ b2) =
      ((decodeChunk p b1).1 ++ (decodeChunk (decodeChunk p b1).2 b2).1,
       (decodeChunk (decodeChunk p b1).2 b2).2) := by
  unfold decodeChunk
  rw [List.foldl_append]
  rcases h1 : b1.foldl decStep (([] : List Char), p) with ⟨t1, p1⟩
  rw [foldl_decStep_acc b2 t1 p1]

lemma joinRest_nil (r : List Char) : joinRest [] r = r := rfl

lemma processChunk_nil (s : ChatState) (hd : s.done = false) (hb : noNL s.buffer) :
    processChunk s [] = s := by
  rcases s with ⟨pend, buffer, rawText, deltas, lines, done⟩
  simp only at hd hb
  rw [hd]
  have hdec : decodeChunk pend [] = (([] : List Char), pend) := rfl
  simp [processChunk, hdec, splitLines_noNL buffer hb, runLines, joinRest]

lemma processChunk_noNL (s : ChatState) (bs : List Nat)
    (h : (processChunk s bs).done = false) : noNL (processChunk s bs).buffer := by
  have hrest := runLines_notDone_rest
    (splitLines (s.buffer ++ (decodeChunk s.pend bs).1)).1 s.deltas s.lines h
  show noNL (joinRest
    (runLines (splitLines (s.buffer ++ (decodeChunk s.pend bs).1)).1 s.deltas s.lines).rest
    (splitLines (s.buffer ++ (decodeChunk s.pend bs).1)).2)
  rw [hrest, joinRest_nil]
  exact splitLines_rest_noNL _

lemma processChunk_append (s : ChatState) (c1 c2 : List Nat)
    (h1 : (processChunk s c1).done = false) :
    processChunk s (c1 ++ c2) = processChunk (processChunk s c1) c2 := by
  rcases hd1 : decodeChunk s.pend c1 with ⟨t1, p1⟩
  rcases hs1 : splitLines (s.buffer ++ t1) with ⟨L1, r1⟩
  rcases ho1 : runLines L1 s.deltas s.lines with ⟨d1, l1, dn1, rest1⟩
  have hS1 : processChunk s c1 =
      { pend := p1, buffer := joinRest rest1 r1, rawText := s.rawText ++ t1,
        deltas := d1, lines := l1, done := dn1 } := by
    simp only [processChunk, hd1, hs1, ho1]
  have h1f : dn1 = false := by
    rw [hS1] at h1
    exact h1
  have hrest1 : rest1 = [] := by
    have h2 := runLines_notDone_rest L1 s.deltas s.lines (by rw [ho1]; exact h1f)
    rw [ho1] at h2
    exact h2
  subst h1f
  subst hrest1
  rcases hd2 : decodeChunk p1 c2 with ⟨t2, p2⟩
  rcases hs2 : splitLines (r1 ++ t2) with ⟨L2, r2⟩
  rcases ho2 : runLines L2 d1 l1 with ⟨d2, l2, dn2, rest2⟩
  have hdec : decodeChunk s.pend (c1 ++ c2) = (t1 ++ t2, p2) := by
    simp [decodeChunk_append, hd1, hd2]
  have hsplit : splitLines (s.buffer ++ (t1 ++ t2)) = (L1 ++ L2, r2) := by
    rw [← List.append_assoc, splitLines_append (s.buffer ++ t1) t2, hs1]
    show (L1 ++ (splitLines (r1 ++ t2)).1, (splitLines (r1 ++ t2)).2) = (L1 ++ L2, r2)
    rw [hs2]
  have hcomb : runLines (L1 ++ L2) s.deltas s.lines = ⟨d2, l2, dn2, rest2⟩ := by
    rw [runLines_append, ho1]
    simp [ho2]
  have hLHS : processChunk s (c1 ++ c2) =
      { pend := p2, buffer := joinRest rest2 r2,
        rawText := s.rawText ++ (t1 ++ t2),
        deltas := d2, lines := l2, done := dn2 } := by
    simp only [processChunk, hdec, hsplit, hcomb]
  have hRHS : processChunk (processChunk s c1) c2 =
      { pend := p2, buffer := joinRest rest2 r2,
        rawText := (s.rawText ++ t1) ++ t2,
        deltas := d2, lines := l2, done := dn2 } := by
    rw [hS1]
    simp only [processChunk, joinRest_nil, hd2, hs2, ho2]
  rw [hLHS, hRHS, List.append_assoc]

lemma processChunk_append_done (s : ChatState) (c1 c2 : List Nat)
    (h1 : (processChunk s c1).done = true) :
    (processChunk s (c1 ++ c2)).deltas = (processChunk s c1).deltas ∧
    (processChunk s (c1 ++ c2)).lines = (processChunk s c1).lines ∧
    (processChunk s (c1 ++ c2)).done = true := by
  rcases hd1 : decodeChunk s.pend c1 with ⟨t1, p1⟩
  rcases hs1 : splitLines (s.buffer ++ t1) with ⟨L1, r1⟩
  rcases ho1 : runLines L1 s.deltas s.lines with ⟨d1, l1, dn1, rest1⟩
  have hS1 : processChunk s c1 =
      { pend := p1, buffer := joinRest rest1 r1, rawText := s.rawText ++ t1,
        deltas := d1, lines := l1, done := dn1 } := by
    simp only [processChunk, hd1, hs1, ho1]
  have h1t : dn1 = true := by
    rw [hS1] at h1
    exact h1
  subst h1t
  rcases hd2 : decodeChunk p1 c2 with ⟨t2, p2⟩
  rcases hs2 : splitLines (r1 ++ t2) with ⟨L2, r2⟩
  have hdec : decodeChunk s.pend (c1 ++ c2) = (t1 ++ t2, p2) := by
    simp [decodeChunk_append, hd1, hd2]
  have hsplit : splitLines (s.buffer ++ (t1 ++ t2)) = (L1 ++ L2, r2) := by
    rw [← List.append_assoc, splitLines_append (s.buffer ++ t1) t2, hs1]
    show (L1 ++ (splitLines (r1 ++ t2)).1, (splitLines (r1 ++ t2)).2) = (L1 ++ L2, r2)
    rw [hs2]
  have hcomb : runLines (L1 ++ L2) s.deltas s.lines = ⟨d1, l1, true, rest1 ++ L2⟩ := by
    rw [runLines_append, ho1]
    simp
  have hLHS : processChunk s (c1 ++ c2) =
      { pend := p2, buffer := joinRest (rest1 ++ L2) r2,
        rawText := s.rawText ++ (t1 ++ t2),
        deltas := d1, lines := l1, done := true } := by
    simp only [processChunk, hdec, hsplit, hcomb]
  rw [hLHS, hS1]
  exact ⟨rfl, rfl, rfl⟩

lemma runStream_done : ∀ (cs : List (List Nat)) (s : ChatState),
    s.done = true → runStream s cs = s := by
  intro cs s h
  cases cs with
  | nil => rfl
  | cons c cs2 =>
    show (if s.done then s else runStream (processChunk s c) cs2) = s
    rw [h]
    simp

lemma runStream_join : ∀ (cs : List (List Nat)) (s : ChatState),
    s.done = false → noNL s.buffer →
    ((runStream s cs).deltas = (processChunk s cs.flatten).deltas ∧
     (runStream s cs).lines = (processChunk s cs.flatten).lines ∧
     (runStream s cs).done = (processChunk s cs.flatten).done ∧
     ((processChunk s cs.flatten).done = false →
       runStream s cs = processChunk s cs.flatten)) := by
  intro cs
  induction cs with
  | nil =>
    intro s hd hb
    have hnil : processChunk s (([] : List (List Nat)).flatten) = s :=
      processChunk_nil s hd hb
    rw [hnil]
    exact ⟨rfl, rfl, rfl, fun _ => rfl⟩
  | cons c cs2 ih =>
    intro s hd hb
    have hrun : runStream s (c :: cs2) = runStream (processChunk s c) cs2 := by
      show (if s.done then s else runStream (processChunk s c) cs2) = _
      rw [hd]
      simp
    have hflat : (c :: cs2).flatten = c ++ cs2.flatten := rfl
    by_cases h1 : (processChunk s c).done
    · have hstop : runStream (processChunk s c) cs2 = processChunk s c :=
        runStream_done cs2 (processChunk s c) h1
      have hobs := processChunk_append_done s c cs2.flatten h1
      rw [hrun, hstop, hflat]
      refine ⟨hobs.1.symm, hobs.2.1.symm, ?_, ?_⟩
      · rw [hobs.2.2, h1]
      · intro hcon
        rw [hobs.2.2] at hcon
        cases hcon
    · have h1f : (processChunk s c).done = false := by simpa using h1
      have hPC : processChunk s (c ++ cs2.flatten) =
          processChunk (processChunk s c) cs2.flatten :=
        processChunk_append s c cs2.flatten h1f
      have hb2 : noNL (processChunk s c).buffer := processChunk_noNL s c h1f
      rw [hrun, hflat, hPC]
      exact ih (processChunk s c) h1f hb2

lemma finalRenderedSt_congr (r1 r2 : ChatState)
    (hd : r1.deltas = r2.deltas)
    (hr : r1.deltas = [] → r1.rawText = r2.rawText) :
    finalRenderedSt r1 = finalRenderedSt r2 := by
  rcases r1 with ⟨p1, b1, w1, d1, l1, dn1⟩
  rcases r2 with ⟨p2, b2, w2, d2, l2, dn2⟩
  simp only at hd hr
  subst hd
  by_cases h : d1 = []
  · rw [hr h]
    rfl
  · simp only [finalRenderedSt]
    rw [if_neg (fun hc => h hc.1), if_neg (fun hc => h hc.1)]

/-- C2 (amended): re-chunking the same total byte sequence yields
identical extracted lines, identical emitted deltas and the same
completion flag; the final rendered text is also identical whenever the
stream was fully consumed (no early `[DONE]` cut) or at least one delta
was emitted — the raw-text fallback after an early sentinel cut with zero
deltas is the one place where chunking can change what is rendered. -/
theorem c2_chunk_invariance (cs1 cs2 : List (List Nat))
    (h : cs1.flatten = cs2.flatten) :
    ((runStream chatInit cs1).lines = (runStream chatInit cs2).lines ∧
     (runStream chatInit cs1).deltas = (runStream chatInit cs2).deltas ∧
     (runStream chatInit cs1).done = (runStream chatInit cs2).done) ∧
    (((runStream chatInit cs1).done = false ∨ (runStream chatInit cs1).deltas ≠ []) →
      finalRendered cs1 = finalRendered cs2) := by
  have hbn : noNL chatInit.buffer := fun c hc => absurd hc (List.not_mem_nil c)
  have m1 := runStream_join cs1 chatInit rfl hbn
  have m2 := runStream_join cs2 chatInit rfl hbn
  rw [h] at m1
  obtain ⟨d1, l1, dn1, f1⟩ := m1
  obtain ⟨d2, l2, dn2, f2⟩ := m2
  refine ⟨⟨l1.trans l2.symm, d1.trans d2.symm, dn1.trans dn2.symm⟩, ?_⟩
  intro hcase
  rcases hcase with hdone | hdelta
  · have hJ : (processChunk chatInit cs2.flatten).done = false := by
      rw [← dn1]
      exact hdone
    unfold finalRendered
    rw [f1 hJ, f2 hJ]
  · unfold finalRendered
    apply finalRenderedSt_congr
    · exact d1.trans d2.symm
    · intro hnil
      exact absurd hnil hdelta

def c2A : List Nat := ("data: [DONE]\nX".toList).map Char.toNat
def c2B1 : List Nat := ("data: [DONE]\n".toList).map Char.toNat
def c2B2 : List Nat := ("X".toList).map Char.toNat

/-- C2 counterexample: the same total byte sequence, chunked so that the
bytes after the `[DONE]` line either are or are not read before the loop
breaks, renders different final text (the zero-delta fallback echoes
whatever raw text was actually received) — so chunk-boundary invariance
of the final rendered text fails as claimed. -/
theorem c2_counterexample :
    [c2A].flatten = [c2B1, c2B2].flatten ∧
    (runStream chatInit [c2A]).lines = (runStream chatInit [c2B1, c2B2]).lines ∧
    finalRendered [c2A] ≠ finalRendered [c2B1, c2B2] := by
  refine ⟨by decide, by decide, by decide⟩

def c2W : List Nat :=
  (("data: ".toList).map Char.toNat) ++ [0xC3, 0xA9] ++
    (("\ndata: [DONE]\n".toList).map Char.toNat)

/-- C2 witness: a stream containing a two-byte UTF-8 code point split
across a chunk boundary renders the same text as the unsplit chunking. -/
theorem c2_witness :
    finalRendered [c2W] = finalRendered [c2W.take 7, c2W.drop 7] ∧
    finalRendered [c2W] = [Char.ofNat 0xE9] := by
  refine ⟨(c2_chunk_invariance [c2W] [c2W.take 7, c2W.drop 7]
    (by decide)).2 (Or.inr (by decide)), by decide⟩
